import Mathlib

/-!
Shallow embedding of the bloom-filter build program (`bloom.py`) and the
query program (`query.py`).

Conventions of the embedding:
* Python byte strings are `List Nat` (each element a byte value 0..255).
* Python big integers are `Nat`; Python `x >> s` is `>>>`, `x & mask` is
  `&&&`, `x | y` is `|||`.
* `bytes.find(t, start)` returns `-1` or an index; it is embedded as
  `pyfind` returning `Int` (with `findfrom : Option Nat` as the underlying
  searcher).
* The SHA-256 primitive is injected as a function `sha : List Nat → List Nat`
  producing the digest bytes; `int.from_bytes(digest, sys.byteorder)` is
  `int_from_bytes` (little-endian, the byte order shared by both programs
  on one machine).
* The `while` loop of `indexsequence` is embedded with explicit fuel; the
  wrapper supplies `seq.length + 1` units, and a theorem shows this always
  suffices (termination).
* Fallible operations (the `IndexError` reachable in `indexfasta`'s
  duplicate-header elimination, the `ZeroDivisionError` reachable in
  `humansample`) are embedded with `Option`.
* The chunked file scanning of `indexfasta` (1 MiB chunks with carry of
  pending header starts between chunks) is transparent to the computed
  offsets: the chunk loops collect exactly every position of `>` in the
  file, in order, and for each such position the first newline at or after
  it (stopping at the first header start that has no later newline, since
  the first-newline-at-or-after map is monotone).  The embedding computes
  those offsets directly on the whole file content.
-/

/-- `n = 3000000000` from the parameter block of both programs. -/
def n : Nat := 3000000000

/-- `m = 34359738368` (bits in the filter) from the parameter block. -/
def m : Nat := 34359738368

/-- `k = 4` hash rounds from the parameter block. -/
def k : Nat := 4

/-- `bitfieldsize = 35` from the parameter block. -/
def bitfieldsize : Nat := 35

/-- Length in bytes of `bytearray(round(m/8))`: `m/8` is exact here. -/
def bloomfilterlen : Nat := m / 8

/-- `int.from_bytes(digest, sys.byteorder)` on a little-endian machine:
byte 0 is least significant. -/
def int_from_bytes (bs : List Nat) : Nat :=
  bs.foldr (fun b acc => b + 256 * acc) 0

/-- The pairs of `bytes.maketrans(b'MRYKVHDBacgtmrykvhdbxnsw', b'NNNNNNNNACGTNNNNNNNNNNNN')`
as (source byte, target byte). -/
def transPairs : List (Nat × Nat) :=
  [(77, 78), (82, 78), (89, 78), (75, 78), (86, 78), (72, 78), (68, 78), (66, 78),
   (97, 65), (99, 67), (103, 71), (116, 84),
   (109, 78), (114, 78), (121, 78), (107, 78), (118, 78), (104, 78),
   (100, 78), (98, 78), (120, 78), (110, 78), (115, 78), (119, 78)]

/-- One byte through the translation table: translated if in the table,
unchanged otherwise. -/
def toN (b : Nat) : Nat :=
  ((transPairs.find? (fun pr => pr.1 == b)).map Prod.snd).getD b

/-- `seq.translate(toN, b'\r\n\t ')`: delete the bytes `\r \n \t space`
first, then map every remaining byte through the table. -/
def translateToN (s : List Nat) : List Nat :=
  (s.filter (fun b => !(b == 13 || b == 10 || b == 9 || b == 32))).map toN

/-- Index (relative) of the first occurrence of `target` in a list. -/
def findfromAux (target : Nat) : List Nat → Option Nat
  | [] => none
  | b :: rest =>
      if b = target then some 0 else (findfromAux target rest).map (· + 1)

/-- Absolute index of the first occurrence of `target` in `content` at or
after `start`, if any. -/
def findfrom (content : List Nat) (target : Nat) (start : Nat) : Option Nat :=
  (findfromAux target (content.drop start)).map (start + ·)

/-- Python `content.find(target, start)`: the index, or `-1` when absent. -/
def pyfind (content : List Nat) (target : Nat) (start : Nat) : Int :=
  match findfrom content target start with
  | none => -1
  | some e => (e : Int)

/-- Python `min` over a (nonempty) list of integers. -/
def pymin : List Int → Int
  | [] => 0
  | a :: rest => rest.foldl min a

/-- The `realstart` computation at the top of the `while` loop of
`indexsequence`: `potenstart = [seq.find(b'A', pointer), ...]`,
`realstart = min(potenstart)`, with the `-1` repair branch; `none` is the
`break` case (no canonical base remains). -/
def realstartOf (seq : List Nat) (pointer : Nat) : Option Int :=
  let potenstart : List Int :=
    [pyfind seq 65 pointer, pyfind seq 84 pointer,
     pyfind seq 71 pointer, pyfind seq 67 pointer]
  let realstart0 := pymin potenstart
  if realstart0 = -1 then
    let poten2 := potenstart.filter (fun i => i > -1)
    if poten2.length = 0 then none else some (pymin poten2)
  else some realstart0

/-- The `realend` computation of `indexsequence`:
`realend = seq.find(b'N', realstart)`, with `len(seq)` when absent. -/
def realendOf (seq : List Nat) (realstart : Nat) : Nat :=
  (findfrom seq 78 realstart).getD seq.length

/-- One pass of the `while` loop of `indexsequence` (identical in
`bloom.py` and `query.py`), with explicit fuel; `none` means the fuel ran
out (never happens, see `indexsequence_terminates`). -/
def indexsequenceAux (seq : List Nat) : Nat → Nat → Option (List (Nat × Nat))
  | 0, _ => none
  | fuel + 1, pointer =>
      if seq.length > pointer then
        match realstartOf seq pointer with
        | none => some []
        | some realstart =>
            let realend := realendOf seq realstart.toNat
            match indexsequenceAux seq fuel realend with
            | none => none
            | some rest => some ((realstart.toNat, realend) :: rest)
      else some []

/-- `indexsequence(seq)`: the list of maximal `(start, end)` runs. -/
def indexsequence (seq : List Nat) : List (Nat × Nat) :=
  (indexsequenceAux seq (seq.length + 1) 0).getD []

/-- The start indices visited by `for i in range(start, stop - kmer + 1)`
(`kmer` is the k-mer length). -/
def windowStarts (start stop kmerlen : Nat) : List Nat :=
  List.range' start (stop + 1 - kmerlen - start)

/-- The sanitized sequence of one fasta record `(headstart, headend,
seqstart, seqend)`: `infile.seek(idx[2]); infile.read(idx[3]-idx[2]+1)`
followed by `.translate(toN, b'\r\n\t ')`. -/
def seqOfRecord (content : List Nat) (idx : Nat × Nat × Nat × Nat) : List Nat :=
  translateToN ((content.drop idx.2.2.1).take (idx.2.2.2 + 1 - idx.2.2.1))

/-- All k-mers enumerated from one record, in processing order. -/
def recordKmers (content : List Nat) (idx : Nat × Nat × Nat × Nat)
    (kmerlen : Nat) : List (List Nat) :=
  (indexsequence (seqOfRecord content idx)).flatMap (fun run =>
    (windowStarts run.1 run.2 kmerlen).map (fun i =>
      ((seqOfRecord content idx).drop i).take kmerlen))

/-- All k-mers the build phase inserts, in processing order. -/
def buildKmers (content : List Nat) (fastaindex : List (Nat × Nat × Nat × Nat))
    (kmerlen : Nat) : List (List Nat) :=
  fastaindex.flatMap (fun idx => recordKmers content idx kmerlen)

/-- All positions of `target` in `content`, ascending: what the chunked
`content.find(b'>', chunkpos)` loop of `indexfasta` accumulates. -/
def findAllIdx (content : List Nat) (target : Nat) : List Nat :=
  (List.range content.length).filter (fun i => content.getD i 0 == target)

/-- For each header start, the offset of the first newline at or after it:
what the `for i in range(len(headend), len(headstart))` loops accumulate
across chunks.  The collection stops at the first header start with no
later newline (all subsequent ones then have none either, by
monotonicity), so `headend` can be shorter than `headstart`. -/
def headendList (content : List Nat) : List Nat → List Nat
  | [] => []
  | s :: rest =>
      match findfrom content 10 s with
      | none => []
      | some e => e :: headendList content rest

/-- The duplicate-header elimination loop
`for i in range(len(headstart)-1, 0, -1): if headend[i] == headend[i-1]:
del headstart[i]; del headend[i]`, counting the loop variable down;
`none` embeds the `IndexError` raised when `headend` is shorter than
`headstart`. -/
def dedupFrom : List Nat → List Nat → Nat → Option (List Nat × List Nat)
  | hs, he, 0 => some (hs, he)
  | hs, he, i + 1 =>
      match he.get? (i + 1), he.get? i with
      | some a, some b =>
          if a = b then dedupFrom (hs.eraseIdx (i + 1)) (he.eraseIdx (i + 1)) i
          else dedupFrom hs he i
      | _, _ => none

/-- The final assembly `fastaindex.append((headstart[i], headend[i],
headend[i]+1, headstart[i+1] - 1))` for `i in range(len(headend))`, after
`headstart.append(filepos)`. -/
def assemble (hs he : List Nat) (flen : Nat) : List (Nat × Nat × Nat × Nat) :=
  let hs2 := hs ++ [flen]
  (List.range he.length).map (fun i =>
    (hs2.getD i 0, he.getD i 0, he.getD i 0 + 1, hs2.getD (i + 1) 0 - 1))

/-- `indexfasta(filename)` as a function of the file content (identical in
`bloom.py` and `query.py`); `none` embeds the reachable `IndexError`. -/
def indexfasta (content : List Nat) : Option (List (Nat × Nat × Nat × Nat)) :=
  let hs := findAllIdx content 62
  let he := headendList content hs
  (dedupFrom hs he (hs.length - 1)).map (fun pr => assemble pr.1 pr.2 content.length)

/-- Number of header markers detected in a file. -/
def headerCount (content : List Nat) : Nat :=
  (findAllIdx content 62).length

/-- A file is well formed when every detected header start has a
terminating newline and no two header starts resolve to the same
newline. -/
def wellFormedFasta (content : List Nat) : Prop :=
  (headendList content (findAllIdx content 62)).length
      = (findAllIdx content 62).length
    ∧ (headendList content (findAllIdx content 62)).Chain' (· ≠ ·)

namespace bloom

/-- `hashit(kmer)` of `bloom.py`, with the SHA-256 primitive injected. -/
def hashit (sha : List Nat → List Nat) (kmer : List Nat) : Nat :=
  int_from_bytes (sha kmer)

/-- `nextposition(hashnumber)` of `bloom.py`: returns the advanced hash
number, the byte position and the bit position. -/
def nextposition (hashnumber : Nat) : Nat × Nat × Nat :=
  let position := hashnumber &&& (2 ^ bitfieldsize - 1)
  let byteposition := position >>> 3
  let bitposition := position &&& 7
  (hashnumber >>> bitfieldsize, byteposition, bitposition)

/-- The `(byteposition, bitposition)` pairs produced by iterating
`nextposition` the given number of rounds, as the `for i in range(0, k)`
loop of `addtobloomfilter` does. -/
def positionsList (hashnumber : Nat) : Nat → List (Nat × Nat)
  | 0 => []
  | rounds + 1 =>
      let r := nextposition hashnumber
      (r.2.1, r.2.2) :: positionsList r.1 rounds

/-- `setbit(bloomfilter, byteposition, bitposition)` of `bloom.py`:
`bloomfilter[byteposition] |= 1 << bitposition`. -/
def setbit (bf : List Nat) (byteposition bitposition : Nat) : List Nat :=
  bf.set byteposition (bf.getD byteposition 0 ||| (1 <<< bitposition))

/-- The inner `for i in range(0, k)` loop of `addtobloomfilter`:
interleaves `nextposition` and `setbit`. -/
def insertRounds (bf : List Nat) (hashnumber : Nat) : Nat → List Nat
  | 0 => bf
  | rounds + 1 =>
      let r := nextposition hashnumber
      insertRounds (setbit bf r.2.1 r.2.2) r.1 rounds

/-- `addtobloomfilter(filename, fastaindex, kmer)` of `bloom.py` as a
function of the file content and the initial filter state. -/
def addtobloomfilter (sha : List Nat → List Nat) (bf0 content : List Nat)
    (fastaindex : List (Nat × Nat × Nat × Nat)) (kmerlen : Nat) : List Nat :=
  fastaindex.foldl (fun bf idx =>
    let seq := seqOfRecord content idx
    (indexsequence seq).foldl (fun bf2 run =>
      (windowStarts run.1 run.2 kmerlen).foldl (fun bf3 i =>
        insertRounds bf3 (hashit sha ((seq.drop i).take kmerlen)) k) bf2) bf) bf0

end bloom

namespace query

/-- `hashit(kmer)` of `query.py` (textually identical to `bloom.py`). -/
def hashit (sha : List Nat → List Nat) (kmer : List Nat) : Nat :=
  int_from_bytes (sha kmer)

/-- `nextposition(hashnumber)` of `query.py` (textually identical to
`bloom.py`). -/
def nextposition (hashnumber : Nat) : Nat × Nat × Nat :=
  let position := hashnumber &&& (2 ^ bitfieldsize - 1)
  let byteposition := position >>> 3
  let bitposition := position &&& 7
  (hashnumber >>> bitfieldsize, byteposition, bitposition)

/-- The `(byteposition, bitposition)` pairs produced by iterating
`nextposition` of `query.py`, as the `for i in range(0, k)` loop of
`humansample` does. -/
def positionsList (hashnumber : Nat) : Nat → List (Nat × Nat)
  | 0 => []
  | rounds + 1 =>
      let r := nextposition hashnumber
      (r.2.1, r.2.2) :: positionsList r.1 rounds

/-- `isbitset(bloomfilter, byteposition, bitposition)` of `query.py`. -/
def isbitset (bf : List Nat) (byteposition bitposition : Nat) : Bool :=
  (bf.getD byteposition 0 &&& (1 <<< bitposition)) != 0

/-- The membership loop of `humansample`: `there = True`, then for each of
the rounds `if isbitset(...) == False: there = False`. -/
def checkRounds (bf : List Nat) (hashnumber : Nat) (there : Bool) :
    Nat → Bool
  | 0 => there
  | rounds + 1 =>
      let r := nextposition hashnumber
      checkRounds bf r.1
        (if isbitset bf r.2.1 r.2.2 = false then false else there) rounds

/-- The per-k-mer membership test `humansample` performs: hash the k-mer
and take the conjunction of the `k` bit queries. -/
def kmertest (sha : List Nat → List Nat) (bf mer : List Nat) : Bool :=
  checkRounds bf (hashit sha mer) true k

/-- The `(total_kmers, human_kmers)` counters `humansample` accumulates
over one record's sanitized sequence. -/
def countKmers (sha : List Nat → List Nat) (bf seq : List Nat)
    (kmerlen : Nat) : Nat × Nat :=
  (indexsequence seq).foldl (fun acc run =>
    (windowStarts run.1 run.2 kmerlen).foldl (fun acc2 i =>
      (acc2.1 + 1,
       if checkRounds bf (hashit sha ((seq.drop i).take kmerlen)) true k
       then acc2.2 + 1 else acc2.2)) acc) (0, 0)

/-- One record of `humansample`: the reported pair
`(human_kmers, total_kmers)` behind the written ratio, or `none` for the
`ZeroDivisionError` raised by `human_kmers/total_kmers` when the record
yields no k-mers. -/
def humansampleRecord (sha : List Nat → List Nat) (bf content : List Nat)
    (idx : Nat × Nat × Nat × Nat) (kmerlen : Nat) : Option (Nat × Nat) :=
  let counts := countKmers sha bf (seqOfRecord content idx) kmerlen
  if counts.1 = 0 then none else some (counts.2, counts.1)

/-- `humansample(filename, fastaindex, kmer)` of `query.py` as a function
of the file content: the list of per-record `(human_kmers, total_kmers)`
pairs written to the report, or `none` when a `ZeroDivisionError` aborts
the run. -/
def humansample (sha : List Nat → List Nat) (bf content : List Nat)
    (fastaindex : List (Nat × Nat × Nat × Nat)) (kmerlen : Nat) :
    Option (List (Nat × Nat)) :=
  fastaindex.foldl (fun acc idx =>
    match acc with
    | none => none
    | some rs =>
        match humansampleRecord sha bf content idx kmerlen with
        | none => none
        | some r => some (rs ++ [r])) (some [])

end query

/-! ### Lemmas about the byte searcher -/

lemma findfromAux_some {t : Nat} :
    ∀ {l : List Nat} {j : Nat}, findfromAux t l = some j →
      j < l.length ∧ l.getD j 0 = t ∧ ∀ i, i < j → l.getD i 0 ≠ t := by
  intro l
  induction l with
  | nil => intro j h; simp [findfromAux] at h
  | cons b rest ih =>
      intro j h
      by_cases hb : b = t
      · simp [findfromAux, hb] at h
        subst h
        refine ⟨by simp, by simpa using hb, by omega⟩
      · simp [findfromAux, hb, Option.map_eq_some'] at h
        obtain ⟨j', hj', rfl⟩ := h
        obtain ⟨h1, h2, h3⟩ := ih hj'
        refine ⟨by simpa using h1, by simpa using h2, ?_⟩
        intro i hi
        cases i with
        | zero => simpa using hb
        | succ i' =>
            have := h3 i' (by omega)
            simpa using this

lemma findfromAux_none {t : Nat} :
    ∀ {l : List Nat}, findfromAux t l = none →
      ∀ i, i < l.length → l.getD i 0 ≠ t := by
  intro l
  induction l with
  | nil => intro _ i hi; simp at hi
  | cons b rest ih =>
      intro h i hi
      by_cases hb : b = t
      · simp [findfromAux, hb] at h
      · simp [findfromAux, hb] at h
        cases i with
        | zero => simpa using hb
        | succ i' => exact ih h i' (by simpa using hi)

lemma getD_drop (l : List Nat) (s j : Nat) :
    (l.drop s).getD j 0 = l.getD (s + j) 0 := by
  simp [List.getD, List.getElem?_drop]

lemma findfrom_some {c : List Nat} {t s e : Nat}
    (h : findfrom c t s = some e) :
    s ≤ e ∧ e < c.length ∧ c.getD e 0 = t ∧
      ∀ i, s ≤ i → i < e → c.getD i 0 ≠ t := by
  simp only [findfrom, Option.map_eq_some'] at h
  obtain ⟨j, hj, rfl⟩ := h
  obtain ⟨h1, h2, h3⟩ := findfromAux_some hj
  rw [List.length_drop] at h1
  refine ⟨by omega, by omega, by rw [← getD_drop]; exact h2, ?_⟩
  intro i hsi hie
  have := h3 (i - s) (by omega)
  rw [getD_drop] at this
  have hrew : s + (i - s) = i := by omega
  rwa [hrew] at this

lemma findfrom_none {c : List Nat} {t s : Nat}
    (h : findfrom c t s = none) :
    ∀ i, s ≤ i → i < c.length → c.getD i 0 ≠ t := by
  simp only [findfrom, Option.map_eq_none'] at h
  intro i hsi hil
  have := findfromAux_none h (i - s) (by rw [List.length_drop]; omega)
  rw [getD_drop] at this
  have hrew : s + (i - s) = i := by omega
  rwa [hrew] at this

lemma findfrom_mono {c : List Nat} {t s s' e' : Nat}
    (hss : s ≤ s') (h' : findfrom c t s' = some e') :
    ∃ e, findfrom c t s = some e ∧ e ≤ e' := by
  obtain ⟨h1, h2, h3, _⟩ := findfrom_some h'
  cases he : findfrom c t s with
  | none => exact absurd h3 (findfrom_none he e' (by omega) h2)
  | some e =>
      refine ⟨e, rfl, ?_⟩
      obtain ⟨g1, g2, g3, g4⟩ := findfrom_some he
      by_contra hlt
      exact g4 e' (by omega) (by omega) h3

/-! ### Lemmas about `pymin` -/

lemma foldl_min_le (l : List Int) (a : Int) :
    l.foldl min a ≤ a ∧ ∀ x ∈ l, l.foldl min a ≤ x := by
  induction l generalizing a with
  | nil => simp
  | cons b rest ih =>
      obtain ⟨ih1, ih2⟩ := ih (min a b)
      refine ⟨le_trans ih1 (min_le_left a b), ?_⟩
      intro x hx
      rcases List.mem_cons.mp hx with rfl | hx
      · exact le_trans ih1 (min_le_right a x)
      · exact ih2 x hx

lemma foldl_min_mem (l : List Int) (a : Int) :
    l.foldl min a = a ∨ l.foldl min a ∈ l := by
  induction l generalizing a with
  | nil => simp
  | cons b rest ih =>
      have hstep : (b :: rest).foldl min a = rest.foldl min (min a b) := rfl
      rcases ih (min a b) with h | h
      · rcases min_choice a b with hc | hc
        · left; rw [hstep, h, hc]
        · right; rw [hstep, h, hc]; exact List.mem_cons_self b rest
      · right; rw [hstep]; exact List.mem_cons_of_mem b h

lemma pymin_mem {l : List Int} (hne : l ≠ []) : pymin l ∈ l := by
  cases l with
  | nil => exact absurd rfl hne
  | cons a rest =>
      rcases foldl_min_mem rest a with h | h
      · simp [pymin, h]
      · simp only [pymin]
        exact List.mem_cons_of_mem a h

lemma pymin_le {l : List Int} {x : Int} (hx : x ∈ l) : pymin l ≤ x := by
  cases l with
  | nil => simp at hx
  | cons a rest =>
      rcases List.mem_cons.mp hx with rfl | hx
      · exact (foldl_min_le rest x).1
      · exact (foldl_min_le rest a).2 x hx

/-! ### The sanitizer loop: realstart/realend specifications -/

lemma pyfind_ge_neg_one (c : List Nat) (t s : Nat) : -1 ≤ pyfind c t s := by
  unfold pyfind
  cases he : findfrom c t s with
  | none =>
      show (-1 : Int) ≤ -1
      omega
  | some e =>
      show (-1 : Int) ≤ (e : Int)
      omega

lemma pyfind_nonneg_spec {c : List Nat} {t s : Nat} {r : Int}
    (hr : r = pyfind c t s) (h0 : 0 ≤ r) :
    s ≤ r.toNat ∧ r.toNat < c.length ∧ c.getD r.toNat 0 = t := by
  unfold pyfind at hr
  cases he : findfrom c t s with
  | none =>
      rw [he] at hr
      simp at hr
      exfalso
      omega
  | some e =>
      rw [he] at hr
      simp at hr
      obtain ⟨h1, h2, h3, _⟩ := findfrom_some he
      have hre : r.toNat = e := by omega
      rw [hre]
      exact ⟨h1, h2, h3⟩

lemma realstart_spec {seq : List Nat} {pointer : Nat} {r : Int}
    (h : realstartOf seq pointer = some r) :
    0 ≤ r ∧ pointer ≤ r.toNat ∧ r.toNat < seq.length ∧
      (seq.getD r.toNat 0 = 65 ∨ seq.getD r.toNat 0 = 84 ∨
       seq.getD r.toNat 0 = 71 ∨ seq.getD r.toNat 0 = 67) := by
  have hmem : (r ∈ [pyfind seq 65 pointer, pyfind seq 84 pointer,
      pyfind seq 71 pointer, pyfind seq 67 pointer]) ∧ 0 ≤ r := by
    simp only [realstartOf] at h
    split at h
    · split at h
      · exact absurd h (by simp)
      · rename_i hlen
        have hne : ([pyfind seq 65 pointer, pyfind seq 84 pointer,
            pyfind seq 71 pointer, pyfind seq 67 pointer].filter
              (fun i => i > -1)) ≠ [] := by
          intro hnil
          rw [hnil] at hlen
          simp at hlen
        have hm := pymin_mem hne
        rw [Option.some_inj] at h
        rw [h] at hm
        obtain ⟨hmP, hpos⟩ := List.mem_filter.mp hm
        refine ⟨hmP, ?_⟩
        have : r > -1 := of_decide_eq_true hpos
        omega
    · rename_i hne1
      rw [Option.some_inj] at h
      have hm := pymin_mem (l := [pyfind seq 65 pointer, pyfind seq 84 pointer,
        pyfind seq 71 pointer, pyfind seq 67 pointer]) (by simp)
      rw [h] at hm hne1
      refine ⟨hm, ?_⟩
      have h65 := pyfind_ge_neg_one seq 65 pointer
      have h84 := pyfind_ge_neg_one seq 84 pointer
      have h71 := pyfind_ge_neg_one seq 71 pointer
      have h67 := pyfind_ge_neg_one seq 67 pointer
      simp only [List.mem_cons, List.not_mem_nil, or_false] at hm
      rcases hm with hm | hm | hm | hm <;> omega
  obtain ⟨hmP, h0⟩ := hmem
  simp only [List.mem_cons, List.not_mem_nil, or_false] at hmP
  rcases hmP with hm | hm | hm | hm <;>
    obtain ⟨g1, g2, g3⟩ := pyfind_nonneg_spec hm h0 <;>
    exact ⟨h0, g1, g2, by omega⟩

lemma realend_spec {seq : List Nat} {rs : Nat}
    (hlt : rs < seq.length) (hne : seq.getD rs 0 ≠ 78) :
    rs < realendOf seq rs ∧ realendOf seq rs ≤ seq.length ∧
      ∀ j, rs ≤ j → j < realendOf seq rs → seq.getD j 0 ≠ 78 := by
  unfold realendOf
  cases he : findfrom seq 78 rs with
  | none =>
      simp only [he, Option.getD_none]
      exact ⟨hlt, le_refl _, fun j hj1 hj2 => findfrom_none he j hj1 hj2⟩
  | some e =>
      simp only [he, Option.getD_some]
      obtain ⟨h1, h2, h3, h4⟩ := findfrom_some he
      have hrse : rs ≠ e := fun hc => hne (by rw [hc]; exact h3)
      exact ⟨by omega, by omega, fun j hj1 hj2 => h4 j hj1 hj2⟩

/-! ### Termination of the sanitizer loop -/

lemma indexsequenceAux_isSome (seq : List Nat) :
    ∀ fuel pointer, seq.length - pointer < fuel →
      (indexsequenceAux seq fuel pointer).isSome = true := by
  intro fuel
  induction fuel with
  | zero => intro p hp; omega
  | succ f ih =>
      intro p hp
      simp only [indexsequenceAux]
      by_cases hlen : seq.length > p
      · rw [if_pos hlen]
        cases hrs : realstartOf seq p with
        | none => simp
        | some r =>
            obtain ⟨h0, h1, h2, h3⟩ := realstart_spec hrs
            have hne78 : seq.getD r.toNat 0 ≠ 78 := by
              rcases h3 with h | h | h | h <;> omega
            obtain ⟨g1, g2, g3⟩ := realend_spec h2 hne78
            have hfuel : seq.length - realendOf seq r.toNat < f := by omega
            have hs := ih (realendOf seq r.toNat) hfuel
            cases hrec : indexsequenceAux seq f (realendOf seq r.toNat) with
            | none => rw [hrec] at hs; simp at hs
            | some rest => simp [hrec]
      · rw [if_neg hlen]; simp

lemma indexsequenceAux_eq_some (seq : List Nat) :
    indexsequenceAux seq (seq.length + 1) 0 = some (indexsequence seq) := by
  have hs := indexsequenceAux_isSome seq (seq.length + 1) 0 (by omega)
  cases he : indexsequenceAux seq (seq.length + 1) 0 with
  | none => rw [he] at hs; simp at hs
  | some runs => simp [indexsequence, he]

/-! ### Invariant of the runs the sanitizer produces -/

lemma indexsequenceAux_runs (seq : List Nat) :
    ∀ fuel pointer runs, indexsequenceAux seq fuel pointer = some runs →
      ∀ pr ∈ runs, pr.1 < pr.2 ∧ pr.2 ≤ seq.length ∧
        (seq.getD pr.1 0 = 65 ∨ seq.getD pr.1 0 = 84 ∨
         seq.getD pr.1 0 = 71 ∨ seq.getD pr.1 0 = 67) ∧
        ∀ j, pr.1 ≤ j → j < pr.2 → seq.getD j 0 ≠ 78 := by
  intro fuel
  induction fuel with
  | zero => intro p runs h; simp [indexsequenceAux] at h
  | succ f ih =>
      intro p runs h
      simp only [indexsequenceAux] at h
      by_cases hlen : seq.length > p
      · rw [if_pos hlen] at h
        cases hrs : realstartOf seq p with
        | none =>
            simp only [hrs, Option.some_inj] at h
            subst h
            intro pr hpr
            simp at hpr
        | some r =>
            simp only [hrs] at h
            obtain ⟨h0, h1, h2, h3⟩ := realstart_spec hrs
            have hne78 : seq.getD r.toNat 0 ≠ 78 := by
              rcases h3 with hh | hh | hh | hh <;> omega
            obtain ⟨g1, g2, g3⟩ := realend_spec h2 hne78
            cases hrec : indexsequenceAux seq f (realendOf seq r.toNat) with
            | none =>
                simp only [hrec] at h
                exact absurd h (by simp)
            | some rest =>
                simp only [hrec, Option.some_inj] at h
                subst h
                intro pr hpr
                rcases List.mem_cons.mp hpr with rfl | hpr
                · exact ⟨g1, g2, h3, g3⟩
                · exact ih (realendOf seq r.toNat) rest hrec pr hpr
      · rw [if_neg hlen] at h
        rw [Option.some_inj] at h
        subst h
        intro pr hpr
        simp at hpr

lemma indexsequence_runs (seq : List Nat) :
    ∀ pr ∈ indexsequence seq, pr.1 < pr.2 ∧ pr.2 ≤ seq.length ∧
      (seq.getD pr.1 0 = 65 ∨ seq.getD pr.1 0 = 84 ∨
       seq.getD pr.1 0 = 71 ∨ seq.getD pr.1 0 = 67) ∧
      ∀ j, pr.1 ≤ j → j < pr.2 → seq.getD j 0 ≠ 78 :=
  indexsequenceAux_runs seq (seq.length + 1) 0 (indexsequence seq)
    (indexsequenceAux_eq_some seq)

/-- C10: `indexsequence` terminates on every input: the loop, run with
`seq.length + 1` units of fuel, always completes (each iteration that
appends a run satisfies `realend > realstart ≥ pointer`, so the pointer
strictly increases). -/
theorem indexsequence_terminates (seq : List Nat) :
    (indexsequenceAux seq (seq.length + 1) 0).isSome = true :=
  indexsequenceAux_isSome seq (seq.length + 1) 0 (by omega)

/-- The bytes a raw record may consist of so that canonicalization covers
all of them: the canonical bases `ACGT`, the sentinel `N`, every byte of
the translation table's domain, and the deleted whitespace bytes. -/
def goodBytes : List Nat :=
  [65, 67, 71, 84, 78, 13, 10, 9, 32] ++ transPairs.map Prod.fst

lemma toN_of_goodByte {b : Nat} (hb : b ∈ goodBytes)
    (hws : ¬(b = 13 ∨ b = 10 ∨ b = 9 ∨ b = 32)) :
    toN b = 65 ∨ toN b = 67 ∨ toN b = 71 ∨ toN b = 84 ∨ toN b = 78 := by
  have hdec : ∀ a ∈ goodBytes, (a = 13 ∨ a = 10 ∨ a = 9 ∨ a = 32) ∨
      (toN a = 65 ∨ toN a = 67 ∨ toN a = 71 ∨ toN a = 84 ∨ toN a = 78) := by
    decide
  rcases hdec b hb with h | h
  · exact absurd h hws
  · exact h

lemma translateToN_good {raw : List Nat} (hgood : ∀ b ∈ raw, b ∈ goodBytes) :
    ∀ b ∈ translateToN raw,
      b = 65 ∨ b = 67 ∨ b = 71 ∨ b = 84 ∨ b = 78 := by
  intro b hb
  simp only [translateToN, List.mem_map, List.mem_filter] at hb
  obtain ⟨a, ⟨ha, hws⟩, rfl⟩ := hb
  refine toN_of_goodByte (hgood a ha) ?_
  intro hc
  rcases hc with rfl | rfl | rfl | rfl <;> simp at hws

lemma getD_mem_of_lt {l : List Nat} {j : Nat} (h : j < l.length) :
    l.getD j 0 ∈ l := by
  rw [List.getD_eq_getElem l 0 h]
  exact List.getElem_mem h

/-- C3 counterexample: the byte `Q` (81) is not covered by the translation
table, so it survives canonicalization unchanged, and `indexsequence` then
produces a run containing it even though it is none of `A`, `C`, `G`, `T`
or the sentinel `N`. -/
theorem translate_run_counterexample :
    translateToN [65, 81, 67] = [65, 81, 67] ∧
    indexsequence [65, 81, 67] = [(0, 3)] ∧
    (translateToN [65, 81, 67]).getD 1 0 = 81 ∧
    ¬(81 = 65 ∨ 81 = 67 ∨ 81 = 71 ∨ 81 = 84 ∨ 81 = 78) := by
  refine ⟨by decide, ?_, by decide, by decide⟩
  decide

/-- C3 (amended): when the raw bytes are drawn from the alphabet the
translation table covers (canonical bases, sentinel, table domain and
whitespace), every byte of the canonicalized buffer is one of
`A`, `C`, `G`, `T`, `N`, and every run `indexsequence` produces on that
buffer is non-empty, stays within bounds, and contains only canonical
bases on `[start, end)`. -/
theorem translate_runs_canonical {raw : List Nat}
    (hgood : ∀ b ∈ raw, b ∈ goodBytes) :
    (∀ b ∈ translateToN raw,
      b = 65 ∨ b = 67 ∨ b = 71 ∨ b = 84 ∨ b = 78) ∧
    ∀ pr ∈ indexsequence (translateToN raw),
      pr.1 < pr.2 ∧ pr.2 ≤ (translateToN raw).length ∧
      ∀ j, pr.1 ≤ j → j < pr.2 →
        ((translateToN raw).getD j 0 = 65 ∨ (translateToN raw).getD j 0 = 67 ∨
         (translateToN raw).getD j 0 = 71 ∨ (translateToN raw).getD j 0 = 84) := by
  refine ⟨translateToN_good hgood, ?_⟩
  intro pr hpr
  obtain ⟨h1, h2, _, h4⟩ := indexsequence_runs (translateToN raw) pr hpr
  refine ⟨h1, h2, ?_⟩
  intro j hj1 hj2
  have hmem := getD_mem_of_lt (l := translateToN raw) (j := j) (by omega)
  have hin := translateToN_good hgood _ hmem
  have hne := h4 j hj1 hj2
  rcases hin with h | h | h | h | h
  · exact Or.inl h
  · exact Or.inr (Or.inl h)
  · exact Or.inr (Or.inr (Or.inl h))
  · exact Or.inr (Or.inr (Or.inr h))
  · exact absurd h hne

/-- C3 witness: a concrete record drawn from the covered alphabet. -/
theorem translate_runs_canonical_witness :
    (∀ b ∈ [65, 78, 67], b ∈ goodBytes) ∧
    ((∀ b ∈ translateToN [65, 78, 67],
        b = 65 ∨ b = 67 ∨ b = 71 ∨ b = 84 ∨ b = 78) ∧
     ∀ pr ∈ indexsequence (translateToN [65, 78, 67]),
       pr.1 < pr.2 ∧ pr.2 ≤ (translateToN [65, 78, 67]).length ∧
       ∀ j, pr.1 ≤ j → j < pr.2 →
         ((translateToN [65, 78, 67]).getD j 0 = 65 ∨
          (translateToN [65, 78, 67]).getD j 0 = 67 ∨
          (translateToN [65, 78, 67]).getD j 0 = 71 ∨
          (translateToN [65, 78, 67]).getD j 0 = 84)) :=
  ⟨by decide, translate_runs_canonical (by decide)⟩

/-! ### The hash-to-address computation -/

lemma positionsList_length (h rounds : Nat) :
    (bloom.positionsList h rounds).length = rounds := by
  induction rounds generalizing h with
  | zero => rfl
  | succ r ih => simp [bloom.positionsList, ih]

lemma positionsList_getD :
    ∀ {rounds h i : Nat}, i < rounds →
      (bloom.positionsList h rounds).getD i (0, 0) =
        (((h >>> (bitfieldsize * i)) &&& (2 ^ bitfieldsize - 1)) >>> 3,
         ((h >>> (bitfieldsize * i)) &&& (2 ^ bitfieldsize - 1)) &&& 7) := by
  intro rounds
  induction rounds with
  | zero => intro h i hi; omega
  | succ r ih =>
      intro h i hi
      cases i with
      | zero =>
          show (bloom.nextposition h).2 = _
          simp [bloom.nextposition, Nat.mul_zero, Nat.shiftRight_zero]
      | succ j =>
          have hstep : (bloom.positionsList h (r + 1)).getD (j + 1) (0, 0) =
              (bloom.positionsList (h >>> bitfieldsize) r).getD j (0, 0) := rfl
          rw [hstep, ih (by omega)]
          have hshift : (h >>> bitfieldsize) >>> (bitfieldsize * j) =
              h >>> (bitfieldsize * (j + 1)) := by
            rw [← Nat.shiftRight_add]
            congr 1
            ring
          rw [hshift]

/-- C6: the address generation produces exactly `k` pairs, and the `i`-th
pair consumes the `i`-th low `bitfieldsize`-bit slice of the digest
integer: `position` is that slice, `byteposition = position >> 3`,
`bitposition = position & 7`, the integer shifting right by
`bitfieldsize` between rounds. -/
theorem nextposition_rounds (h i : Nat) (hik : i < k) :
    (bloom.positionsList h k).length = k ∧
    (bloom.positionsList h k).getD i (0, 0) =
      (((h >>> (bitfieldsize * i)) &&& (2 ^ bitfieldsize - 1)) >>> 3,
       ((h >>> (bitfieldsize * i)) &&& (2 ^ bitfieldsize - 1)) &&& 7) :=
  ⟨positionsList_length h k, positionsList_getD hik⟩

/-- C6 witness at a concrete digest integer and round index. -/
theorem nextposition_rounds_witness :
    1 < k ∧
    ((bloom.positionsList 123456789012 k).length = k ∧
     (bloom.positionsList 123456789012 k).getD 1 (0, 0) =
       (((123456789012 >>> (bitfieldsize * 1)) &&& (2 ^ bitfieldsize - 1)) >>> 3,
        ((123456789012 >>> (bitfieldsize * 1)) &&& (2 ^ bitfieldsize - 1)) &&& 7)) :=
  ⟨by decide, nextposition_rounds 123456789012 1 (by decide)⟩

/-- C5: the digest-to-address computation is a pure function, and the
build program and the query program compute it identically: same
`int.from_bytes` interpretation of the digest (shared byte order) and the
same `k` `(byteposition, bitposition)` pairs for every k-mer. -/
theorem build_query_consistent (sha : List Nat → List Nat) (mer : List Nat)
    (rounds : Nat) :
    bloom.hashit sha mer = query.hashit sha mer ∧
    bloom.positionsList (bloom.hashit sha mer) rounds =
      query.positionsList (query.hashit sha mer) rounds := by
  have hb : ∀ hn r', bloom.positionsList hn r' = query.positionsList hn r' := by
    intro hn r'
    induction r' generalizing hn with
    | zero => rfl
    | succ r'' ih' => simp [bloom.positionsList, query.positionsList,
        bloom.nextposition, query.nextposition, ih']
  have hh : bloom.hashit sha mer = query.hashit sha mer := rfl
  exact ⟨hh, by rw [← hh]; exact hb _ rounds⟩

/-- C7 counterexample: a digest far narrower than `k * bitfieldsize`
(one byte, 8 bits) is not rejected anywhere: the address generation
silently completes, and once the digest bits are exhausted the remaining
rounds all produce the position `(0, 0)`. -/
theorem narrow_digest_counterexample :
    bloom.hashit (fun _ => [5]) [65] = 5 ∧
    bloom.positionsList (bloom.hashit (fun _ => [5]) [65]) k =
      [(0, 5), (0, 0), (0, 0), (0, 0)] := by
  constructor
  · decide
  · decide

lemma positionsList_low_bits :
    ∀ (rounds h1 h2 : Nat),
      h1 % 2 ^ (bitfieldsize * rounds) = h2 % 2 ^ (bitfieldsize * rounds) →
      bloom.positionsList h1 rounds = bloom.positionsList h2 rounds := by
  intro rounds
  induction rounds with
  | zero => intro h1 h2 _; rfl
  | succ r ih =>
      intro h1 h2 hmod
      have hdvd : (2 ^ bitfieldsize : Nat) ∣ 2 ^ (bitfieldsize * (r + 1)) :=
        pow_dvd_pow 2 (by nlinarith)
      have hlow : h1 % 2 ^ bitfieldsize = h2 % 2 ^ bitfieldsize := by
        rw [← Nat.mod_mod_of_dvd h1 hdvd, ← Nat.mod_mod_of_dvd h2 hdvd, hmod]
      have hmask : h1 &&& (2 ^ bitfieldsize - 1) = h2 &&& (2 ^ bitfieldsize - 1) := by
        rw [Nat.and_pow_two_sub_one_eq_mod, Nat.and_pow_two_sub_one_eq_mod, hlow]
      have hsplit : (2 ^ (bitfieldsize * (r + 1)) : Nat) =
          2 ^ bitfieldsize * 2 ^ (bitfieldsize * r) := by
        rw [← pow_add]
        congr 1
        ring
      have hhigh : (h1 >>> bitfieldsize) % 2 ^ (bitfieldsize * r) =
          (h2 >>> bitfieldsize) % 2 ^ (bitfieldsize * r) := by
        rw [Nat.shiftRight_eq_div_pow, Nat.shiftRight_eq_div_pow,
          ← Nat.mod_mul_right_div_self, ← Nat.mod_mul_right_div_self,
          ← hsplit, hmod]
      show ((h1 &&& (2 ^ bitfieldsize - 1)) >>> 3,
            (h1 &&& (2 ^ bitfieldsize - 1)) &&& 7) ::
          bloom.positionsList (h1 >>> bitfieldsize) r = _
      rw [hmask, ih _ _ hhigh]
      rfl

lemma int_from_bytes_lt :
    ∀ bs : List Nat, (∀ b ∈ bs, b < 256) →
      int_from_bytes bs < 256 ^ bs.length := by
  intro bs
  induction bs with
  | nil => intro _; simp [int_from_bytes]
  | cons b rest ih =>
      intro hb
      have h1 : b < 256 := hb b (List.mem_cons_self _ _)
      have h2 : int_from_bytes rest < 256 ^ rest.length :=
        ih (fun x hx => hb x (List.mem_cons_of_mem _ hx))
      have hred : int_from_bytes (b :: rest) = b + 256 * int_from_bytes rest := rfl
      have hp : 1 ≤ 256 ^ rest.length := Nat.one_le_pow _ _ (by omega)
      have hm : 256 * int_from_bytes rest ≤ 256 * (256 ^ rest.length - 1) :=
        Nat.mul_le_mul_left 256 (by omega)
      have hlen : (b :: rest).length = rest.length + 1 := rfl
      have hpow : (256 : Nat) ^ (rest.length + 1) = 256 * 256 ^ rest.length := by
        rw [pow_succ]
        ring
      rw [hred, hlen, hpow]
      omega

/-- C7 (amended): there is no startup width check; instead the address
generation consumes exactly the low `k * bitfieldsize = 140` bits of the
digest integer (digests agreeing on those bits give identical address
pairs — nothing wraps and no bit is reused across rounds), and a 32-byte
SHA-256 digest always fits them: `k * bitfieldsize ≤ 256` and the
`int.from_bytes` value of any 32-byte digest is below `2 ^ 256`. -/
theorem positions_use_low_bits (h1 h2 : Nat) (bs : List Nat)
    (hmod : h1 % 2 ^ (k * bitfieldsize) = h2 % 2 ^ (k * bitfieldsize))
    (hlen : bs.length = 32) (hbytes : ∀ b ∈ bs, b < 256) :
    k * bitfieldsize ≤ 256 ∧
    bloom.positionsList h1 k = bloom.positionsList h2 k ∧
    int_from_bytes bs < 2 ^ 256 := by
  refine ⟨by decide, ?_, ?_⟩
  · have hcomm : (2 : Nat) ^ (k * bitfieldsize) = 2 ^ (bitfieldsize * k) := by
      rw [Nat.mul_comm]
    rw [hcomm] at hmod
    exact positionsList_low_bits k h1 h2 hmod
  · have := int_from_bytes_lt bs hbytes
    rw [hlen] at this
    calc int_from_bytes bs < 256 ^ 32 := this
      _ = 2 ^ 256 := by decide

/-- C7 amended-claim witness at concrete digests agreeing on the low
140 bits, and a concrete 32-byte digest. -/
theorem positions_use_low_bits_witness :
    ((2 ^ 140 + 7) % 2 ^ (k * bitfieldsize) = 7 % 2 ^ (k * bitfieldsize) ∧
     (List.replicate 32 9).length = 32 ∧ (∀ b ∈ List.replicate 32 9, b < 256)) ∧
    (k * bitfieldsize ≤ 256 ∧
     bloom.positionsList (2 ^ 140 + 7) k = bloom.positionsList 7 k ∧
     int_from_bytes (List.replicate 32 9) < 2 ^ 256) :=
  ⟨⟨by decide, by decide, by decide⟩,
   positions_use_low_bits (2 ^ 140 + 7) 7 (List.replicate 32 9)
     (by decide) (by decide) (by decide)⟩

/-- C9: with `bitfieldsize = 35` and `m = 2^35`, the byte position of
every pair `nextposition` returns (in either program) is below
`m / 8 = 2^32`, the length of the `bytearray(round(m/8))` filter buffer,
and the bit position is below 8 — so `setbit` and `isbitset` always
access a valid buffer index. -/
theorem nextposition_in_bounds (h : Nat) :
    m / 8 = 2 ^ 32 ∧ bloomfilterlen = 2 ^ 32 ∧
    (bloom.nextposition h).2.1 < bloomfilterlen ∧
    (bloom.nextposition h).2.2 < 8 ∧
    (query.nextposition h).2.1 < bloomfilterlen ∧
    (query.nextposition h).2.2 < 8 := by
  have hmask : h &&& (2 ^ bitfieldsize - 1) ≤ 2 ^ bitfieldsize - 1 :=
    Nat.and_le_right
  have hbyte : (h &&& (2 ^ bitfieldsize - 1)) >>> 3 < 2 ^ 32 := by
    rw [Nat.shiftRight_eq_div_pow]
    have := Nat.div_le_div_right (c := 2 ^ 3) hmask
    have hval : (2 ^ bitfieldsize - 1) / 2 ^ 3 = 2 ^ 32 - 1 := by decide
    omega
  have hbit : (h &&& (2 ^ bitfieldsize - 1)) &&& 7 < 8 := by
    have : (h &&& (2 ^ bitfieldsize - 1)) &&& 7 ≤ 7 := Nat.and_le_right
    omega
  have hlen : bloomfilterlen = 2 ^ 32 := by decide
  exact ⟨by decide, hlen, by rw [hlen]; exact hbyte, hbit,
    by rw [hlen]; exact hbyte, hbit⟩

/-! ### The bit array: setbit, isbitset and their interaction -/

lemma setbit_length (bf : List Nat) (a b : Nat) :
    (bloom.setbit bf a b).length = bf.length :=
  List.length_set bf a _

lemma isbitset_testBit (bf : List Nat) (x y : Nat) :
    query.isbitset bf x y = (bf.getD x 0).testBit y := by
  unfold query.isbitset
  rw [Nat.one_shiftLeft, Nat.and_two_pow]
  cases h : (bf.getD x 0).testBit y <;> simp [h]

lemma getD_setbit_same {bf : List Nat} {a : Nat} (ha : a < bf.length)
    (b : Nat) :
    (bloom.setbit bf a b).getD a 0 = bf.getD a 0 ||| (1 <<< b) := by
  unfold bloom.setbit
  rw [List.getD_eq_getElem?_getD, List.getElem?_set_eq_of_lt _ ha]
  rfl

lemma getD_setbit_ne {bf : List Nat} {a x : Nat} (h : a ≠ x) (b : Nat) :
    (bloom.setbit bf a b).getD x 0 = bf.getD x 0 := by
  unfold bloom.setbit
  rw [List.getD_eq_getElem?_getD, List.getElem?_set_ne h,
    ← List.getD_eq_getElem?_getD]

lemma isbitset_setbit_same {bf : List Nat} {a : Nat} (ha : a < bf.length)
    (b : Nat) :
    query.isbitset (bloom.setbit bf a b) a b = true := by
  rw [isbitset_testBit, getD_setbit_same ha, Nat.one_shiftLeft,
    Nat.testBit_or, Nat.testBit_two_pow_self]
  simp

lemma isbitset_setbit_mono {bf : List Nat} {a b x y : Nat}
    (h : query.isbitset bf x y = true) :
    query.isbitset (bloom.setbit bf a b) x y = true := by
  by_cases hax : a = x
  · subst hax
    by_cases ha : a < bf.length
    · rw [isbitset_testBit, getD_setbit_same ha, Nat.testBit_or]
      rw [isbitset_testBit] at h
      rw [h]
      simp
    · unfold bloom.setbit
      rw [List.set_eq_of_length_le (by omega)]
      exact h
  · rw [isbitset_testBit, getD_setbit_ne hax, ← isbitset_testBit]
    exact h

lemma foldl_setbit_length :
    ∀ (pairs : List (Nat × Nat)) (bf : List Nat),
      (pairs.foldl (fun b p => bloom.setbit b p.1 p.2) bf).length = bf.length := by
  intro pairs
  induction pairs with
  | nil => intro bf; rfl
  | cons q rest ih =>
      intro bf
      show (rest.foldl _ (bloom.setbit bf q.1 q.2)).length = _
      rw [ih, setbit_length]

lemma foldl_setbit_mono :
    ∀ (pairs : List (Nat × Nat)) (bf : List Nat) (x y : Nat),
      query.isbitset bf x y = true →
      query.isbitset (pairs.foldl (fun b p => bloom.setbit b p.1 p.2) bf) x y
        = true := by
  intro pairs
  induction pairs with
  | nil => intro bf x y h; exact h
  | cons q rest ih =>
      intro bf x y h
      exact ih (bloom.setbit bf q.1 q.2) x y (isbitset_setbit_mono h)

lemma foldl_setbit_sets :
    ∀ (pairs : List (Nat × Nat)) (bf : List Nat) (p : Nat × Nat),
      p ∈ pairs → p.1 < bf.length →
      query.isbitset (pairs.foldl (fun b pr => bloom.setbit b pr.1 pr.2) bf)
        p.1 p.2 = true := by
  intro pairs
  induction pairs with
  | nil => intro bf p hp; simp at hp
  | cons q rest ih =>
      intro bf p hp hlen
      rcases List.mem_cons.mp hp with rfl | hp
      · exact foldl_setbit_mono rest _ p.1 p.2 (isbitset_setbit_same hlen p.2)
      · exact ih (bloom.setbit bf q.1 q.2) p hp (by rw [setbit_length]; exact hlen)

lemma insertRounds_eq :
    ∀ (rounds : Nat) (bf : List Nat) (h : Nat),
      bloom.insertRounds bf h rounds =
        (bloom.positionsList h rounds).foldl
          (fun b p => bloom.setbit b p.1 p.2) bf := by
  intro rounds
  induction rounds with
  | zero => intro bf h; rfl
  | succ r ih =>
      intro bf h
      show bloom.insertRounds (bloom.setbit bf _ _) _ r = _
      rw [ih]
      rfl

lemma checkRounds_eq :
    ∀ (rounds : Nat) (bf : List Nat) (h : Nat) (there : Bool),
      query.checkRounds bf h there rounds =
        (there && (query.positionsList h rounds).all
          (fun p => query.isbitset bf p.1 p.2)) := by
  intro rounds
  induction rounds with
  | zero => intro bf h there; simp [query.checkRounds, query.positionsList]
  | succ r ih =>
      intro bf h there
      show query.checkRounds bf _ _ r = _
      rw [ih]
      cases hbit : query.isbitset bf ((query.nextposition h).2.1)
          ((query.nextposition h).2.2) with
      | false => simp [query.positionsList, List.all_cons, hbit]
      | true => simp [query.positionsList, List.all_cons, hbit]

/-! ### Fold fusion: the build loop as a fold over the enumerated k-mers -/

lemma foldl_flatMap_eq {α β γ : Type} (g : α → List β) (f : γ → β → γ) :
    ∀ (L : List α) (init : γ),
      (L.flatMap g).foldl f init =
        L.foldl (fun c a => (g a).foldl f c) init := by
  intro L
  induction L with
  | nil => intro init; rfl
  | cons a rest ih =>
      intro init
      rw [List.flatMap_cons, List.foldl_append, ih]
      rfl

lemma addtobloomfilter_eq (sha : List Nat → List Nat) (bf content : List Nat)
    (fidx : List (Nat × Nat × Nat × Nat)) (kl : Nat) :
    bloom.addtobloomfilter sha bf content fidx kl =
      (buildKmers content fidx kl).foldl
        (fun b mer => bloom.insertRounds b (bloom.hashit sha mer) k) bf := by
  unfold buildKmers
  rw [foldl_flatMap_eq]
  unfold bloom.addtobloomfilter
  congr 1
  funext c idx
  show (indexsequence (seqOfRecord content idx)).foldl
      (fun bf2 run => (windowStarts run.1 run.2 kl).foldl
        (fun bf3 i => bloom.insertRounds bf3
          (bloom.hashit sha (((seqOfRecord content idx).drop i).take kl)) k) bf2) c
    = (recordKmers content idx kl).foldl
        (fun b mer => bloom.insertRounds b (bloom.hashit sha mer) k) c
  unfold recordKmers
  rw [foldl_flatMap_eq]
  congr 1
  funext c2 run
  rw [List.foldl_map]

lemma hashit_eq (sha : List Nat → List Nat) (mer : List Nat) :
    bloom.hashit sha mer = query.hashit sha mer := rfl

lemma positionsList_eq (hn rounds : Nat) :
    bloom.positionsList hn rounds = query.positionsList hn rounds := by
  induction rounds generalizing hn with
  | zero => rfl
  | succ r ih => simp [bloom.positionsList, query.positionsList,
      bloom.nextposition, query.nextposition, ih]

lemma insertKmers_length :
    ∀ (kmers : List (List Nat)) (sha : List Nat → List Nat) (bf : List Nat),
      (kmers.foldl (fun b mer => bloom.insertRounds b (bloom.hashit sha mer) k)
        bf).length = bf.length := by
  intro kmers
  induction kmers with
  | nil => intro sha bf; rfl
  | cons q rest ih =>
      intro sha bf
      show (rest.foldl _ (bloom.insertRounds bf _ k)).length = _
      rw [ih, insertRounds_eq, foldl_setbit_length]

lemma insertKmers_mono :
    ∀ (kmers : List (List Nat)) (sha : List Nat → List Nat) (bf : List Nat)
      (x y : Nat), query.isbitset bf x y = true →
      query.isbitset
        (kmers.foldl (fun b mer => bloom.insertRounds b (bloom.hashit sha mer) k)
          bf) x y = true := by
  intro kmers
  induction kmers with
  | nil => intro sha bf x y h; exact h
  | cons q rest ih =>
      intro sha bf x y h
      refine ih sha _ x y ?_
      show query.isbitset (bloom.insertRounds bf (bloom.hashit sha q) k) x y
        = true
      rw [insertRounds_eq]
      exact foldl_setbit_mono _ bf x y h

lemma insertKmers_sets :
    ∀ (kmers : List (List Nat)) (sha : List Nat → List Nat) (bf : List Nat)
      (mer : List Nat), mer ∈ kmers →
      (∀ pq ∈ bloom.positionsList (bloom.hashit sha mer) k, pq.1 < bf.length) →
      ∀ pq ∈ bloom.positionsList (bloom.hashit sha mer) k,
        query.isbitset
          (kmers.foldl
            (fun b mer2 => bloom.insertRounds b (bloom.hashit sha mer2) k) bf)
          pq.1 pq.2 = true := by
  intro kmers
  induction kmers with
  | nil => intro sha bf mer hmem; simp at hmem
  | cons q rest ih =>
      intro sha bf mer hmem hbound pq hpq
      rcases List.mem_cons.mp hmem with rfl | hmem
      · show query.isbitset (rest.foldl _ (bloom.insertRounds bf _ k)) _ _ = true
        refine insertKmers_mono rest sha _ pq.1 pq.2 ?_
        rw [insertRounds_eq]
        exact foldl_setbit_sets _ bf pq hpq (hbound pq hpq)
      · refine ih sha _ mer hmem ?_ pq hpq
        intro pq2 hpq2
        show pq2.1 < (bloom.insertRounds bf (bloom.hashit sha q) k).length
        rw [insertRounds_eq, foldl_setbit_length]
        exact hbound pq2 hpq2

/-- C1: no false negatives — every k-mer whose `k`
`(byteposition, bitposition)` pairs were set by the build loop (as
`addtobloomfilter` does, over any record index and any filter whose
buffer covers those byte positions) passes the membership test
`humansample` performs over the same bit array. -/
theorem built_kmer_tests_positive (sha : List Nat → List Nat)
    (bf0 content : List Nat) (fidx : List (Nat × Nat × Nat × Nat))
    (kl : Nat) (mer : List Nat)
    (hmem : mer ∈ buildKmers content fidx kl)
    (hbound : ∀ pq ∈ bloom.positionsList (bloom.hashit sha mer) k,
      pq.1 < bf0.length) :
    query.kmertest sha (bloom.addtobloomfilter sha bf0 content fidx kl) mer
      = true := by
  rw [addtobloomfilter_eq]
  unfold query.kmertest
  rw [checkRounds_eq, ← hashit_eq, ← positionsList_eq]
  have hset := insertKmers_sets (buildKmers content fidx kl) sha bf0 mer
    hmem hbound
  simp only [Bool.true_and, List.all_eq_true]
  intro pq hpq
  exact hset pq hpq

/-- C1 witness: one record `>x\nAAAA\n` built with k-mer length 2 into a
one-byte filter, under a digest primitive returning the empty digest. -/
theorem built_kmer_tests_positive_witness :
    ([65, 65] ∈ buildKmers [62, 120, 10, 65, 65, 65, 10] [(0, 2, 3, 6)] 2 ∧
     ∀ pq ∈ bloom.positionsList (bloom.hashit (fun _ => []) [65, 65]) k,
       pq.1 < [(0 : Nat)].length) ∧
    query.kmertest (fun _ => [])
      (bloom.addtobloomfilter (fun _ => []) [0] [62, 120, 10, 65, 65, 65, 10]
        [(0, 2, 3, 6)] 2) [65, 65] = true :=
  ⟨⟨by decide, by decide⟩,
   built_kmer_tests_positive (fun _ => []) [0] [62, 120, 10, 65, 65, 65, 10]
     [(0, 2, 3, 6)] 2 [65, 65] (by decide) (by decide)⟩

/-- C2: `humansample` on a record that yields zero k-mers (here `>h` with
sequence `AC`, k-mer length 30): `total_kmers` ends at 0 and the report
line divides `human_kmers/total_kmers`, so the run raises
`ZeroDivisionError` (embedded as `none`) instead of reporting an
"undefined" result and continuing. -/
theorem humansample_zero_kmers_faults :
    query.countKmers (fun _ => []) [0]
      (seqOfRecord [62, 104, 10, 65, 67, 10] (0, 2, 3, 5)) 30 = (0, 0) ∧
    query.humansample (fun _ => []) [0] [62, 104, 10, 65, 67, 10]
      [(0, 2, 3, 5)] 30 = none := by
  constructor
  · decide
  · decide

/-! ### Properties of the fasta indexer -/

lemma findAllIdx_sorted (content : List Nat) (t : Nat) :
    (findAllIdx content t).Pairwise (· < ·) :=
  (List.pairwise_lt_range content.length).filter _

lemma findAllIdx_lt {content : List Nat} {t x : Nat}
    (hx : x ∈ findAllIdx content t) : x < content.length := by
  have := (List.mem_filter.mp hx).1
  exact List.mem_range.mp this

lemma findAllIdx_head {content : List Nat} (h62 : content.getD 0 0 = 62)
    (hne : content ≠ []) : (findAllIdx content 62).head? = some 0 := by
  cases content with
  | nil => exact absurd rfl hne
  | cons b cs =>
      unfold findAllIdx
      rw [List.length_cons, List.range_succ_eq_map, List.filter_cons]
      have hb : b = 62 := by simpa using h62
      have hp : ((b :: cs).getD 0 0 == 62) = true := by simp [hb]
      rw [if_pos hp]
      rfl

lemma findAllIdx_mem_zero {content : List Nat} (h62 : content.getD 0 0 = 62)
    (hne : content ≠ []) : 0 ∈ findAllIdx content 62 := by
  refine List.mem_filter.mpr ⟨List.mem_range.mpr ?_, ?_⟩
  · cases content with
    | nil => exact absurd rfl hne
    | cons b cs => simp
  · simp only [List.getD_eq_getElem?_getD] at h62
    simp [h62]

lemma headendList_length_le (content : List Nat) :
    ∀ hs : List Nat, (headendList content hs).length ≤ hs.length := by
  intro hs
  induction hs with
  | nil => simp [headendList]
  | cons s rest ih =>
      unfold headendList
      cases findfrom content 10 s with
      | none => simp
      | some e => simpa using ih

lemma headendList_chain (content : List Nat) :
    ∀ hs : List Nat, hs.Chain' (· ≤ ·) →
      (headendList content hs).Chain' (· ≤ ·) := by
  intro hs
  induction hs with
  | nil => intro _; simp [headendList]
  | cons s rest ih =>
      intro hchain
      obtain ⟨hhead, htail⟩ := List.chain'_cons'.mp hchain
      unfold headendList
      cases he : findfrom content 10 s with
      | none => simp
      | some e =>
          refine List.chain'_cons'.mpr ⟨?_, ih htail⟩
          intro y hy
          cases rest with
          | nil => simp [headendList] at hy
          | cons s2 r2 =>
              unfold headendList at hy
              cases he2 : findfrom content 10 s2 with
              | none => rw [he2] at hy; simp at hy
              | some e2 =>
                  rw [he2] at hy
                  simp only [Option.mem_def, List.head?_cons,
                    Option.some_inj] at hy
                  subst hy
                  have hs2 : s ≤ s2 := hhead s2 (by rfl)
                  obtain ⟨e0, he0, hle⟩ := findfrom_mono hs2 he2
                  rw [he] at he0
                  rw [Option.some_inj] at he0
                  omega

lemma head_eraseIdx_succ (l : List Nat) (i : Nat) :
    (l.eraseIdx (i + 1)).head? = l.head? := by
  cases l with
  | nil => rfl
  | cons a t => rfl

lemma dedupFrom_sublist :
    ∀ (c : Nat) (hs he hs' he' : List Nat),
      dedupFrom hs he c = some (hs', he') →
      List.Sublist hs' hs ∧ List.Sublist he' he := by
  intro c
  induction c with
  | zero =>
      intro hs he hs' he' h
      simp only [dedupFrom, Option.some_inj, Prod.mk.injEq] at h
      obtain ⟨rfl, rfl⟩ := h
      exact ⟨List.Sublist.refl _, List.Sublist.refl _⟩
  | succ i ih =>
      intro hs he hs' he' h
      simp only [dedupFrom] at h
      cases ha : he.get? (i + 1) with
      | none =>
          simp only [ha] at h
          exact absurd h (by simp)
      | some a =>
          cases hb : he.get? i with
          | none =>
              simp only [ha, hb] at h
              exact absurd h (by simp)
          | some b =>
              simp only [ha, hb] at h
              by_cases hab : a = b
              · rw [if_pos hab] at h
                obtain ⟨g1, g2⟩ := ih _ _ _ _ h
                exact ⟨g1.trans (List.eraseIdx_sublist hs (i + 1)),
                  g2.trans (List.eraseIdx_sublist he (i + 1))⟩
              · rw [if_neg hab] at h
                exact ih _ _ _ _ h

lemma dedupFrom_head :
    ∀ (c : Nat) (hs he hs' he' : List Nat),
      dedupFrom hs he c = some (hs', he') →
      hs'.head? = hs.head? ∧ he'.head? = he.head? := by
  intro c
  induction c with
  | zero =>
      intro hs he hs' he' h
      simp only [dedupFrom, Option.some_inj, Prod.mk.injEq] at h
      obtain ⟨rfl, rfl⟩ := h
      exact ⟨rfl, rfl⟩
  | succ i ih =>
      intro hs he hs' he' h
      simp only [dedupFrom] at h
      cases ha : he.get? (i + 1) with
      | none =>
          simp only [ha] at h
          exact absurd h (by simp)
      | some a =>
          cases hb : he.get? i with
          | none =>
              simp only [ha, hb] at h
              exact absurd h (by simp)
          | some b =>
              simp only [ha, hb] at h
              by_cases hab : a = b
              · rw [if_pos hab] at h
                obtain ⟨g1, g2⟩ := ih _ _ _ _ h
                rw [head_eraseIdx_succ] at g1 g2
                exact ⟨g1, g2⟩
              · rw [if_neg hab] at h
                exact ih _ _ _ _ h

lemma dedupFrom_len :
    ∀ (c : Nat) (hs he hs' he' : List Nat), he.length ≤ hs.length →
      dedupFrom hs he c = some (hs', he') →
      he'.length ≤ hs'.length ∧
        (he.length = hs.length → he'.length = hs'.length) := by
  intro c
  induction c with
  | zero =>
      intro hs he hs' he' hle h
      simp only [dedupFrom, Option.some_inj, Prod.mk.injEq] at h
      obtain ⟨rfl, rfl⟩ := h
      exact ⟨hle, fun hx => hx⟩
  | succ i ih =>
      intro hs he hs' he' hle h
      simp only [dedupFrom] at h
      cases ha : he.get? (i + 1) with
      | none =>
          simp only [ha] at h
          exact absurd h (by simp)
      | some a =>
          cases hb : he.get? i with
          | none =>
              simp only [ha, hb] at h
              exact absurd h (by simp)
          | some b =>
              simp only [ha, hb] at h
              have hlt : i + 1 < he.length := by
                have := List.get?_eq_some.mp ha
                exact this.1
              by_cases hab : a = b
              · rw [if_pos hab] at h
                have hlt2 : i + 1 < hs.length := by omega
                have e1 : (hs.eraseIdx (i + 1)).length = hs.length - 1 :=
                  List.length_eraseIdx_of_lt hlt2
                have e2 : (he.eraseIdx (i + 1)).length = he.length - 1 :=
                  List.length_eraseIdx_of_lt hlt
                obtain ⟨g1, g2⟩ := ih _ _ _ _ (by omega) h
                refine ⟨g1, fun hx => g2 (by omega)⟩
              · rw [if_neg hab] at h
                exact ih _ _ _ _ hle h

lemma dedupFrom_noop :
    ∀ (c : Nat) (hs he : List Nat), c < he.length ∨ c = 0 →
      he.Chain' (· ≠ ·) →
      dedupFrom hs he c = some (hs, he) := by
  intro c
  induction c with
  | zero => intro hs he _ _; rfl
  | succ i ih =>
      intro hs he hc hchain
      have hlt : i + 1 < he.length := by omega
      have hltB : i < he.length := by omega
      have hA : he.get? (i + 1) = some (he.getD (i + 1) 0) := by
        rw [List.get?_eq_getElem?, List.getElem?_eq_getElem hlt,
          List.getD_eq_getElem he 0 hlt]
      have hB : he.get? i = some (he.getD i 0) := by
        rw [List.get?_eq_getElem?, List.getElem?_eq_getElem hltB,
          List.getD_eq_getElem he 0 hltB]
      have hadj : he.getD i 0 ≠ he.getD (i + 1) 0 := by
        have hg := List.chain'_iff_get.mp hchain i (by omega)
        rw [List.getD_eq_getElem he 0 hltB, List.getD_eq_getElem he 0 hlt]
        exact hg
      simp only [dedupFrom]
      simp only [hA, hB]
      rw [if_neg (fun hcc => hadj (Eq.symm hcc))]
      exact ih hs he (by omega) hchain

lemma getD_eraseIdx_lt {l : List Nat} {i j : Nat} (h : j < i) :
    (l.eraseIdx i).getD j 0 = l.getD j 0 := by
  rw [List.getD_eq_getElem?_getD, List.getD_eq_getElem?_getD,
    List.getElem?_eraseIdx, if_pos h]

lemma getD_eraseIdx_ge {l : List Nat} {i j : Nat} (h : i ≤ j) :
    (l.eraseIdx i).getD j 0 = l.getD (j + 1) 0 := by
  rw [List.getD_eq_getElem?_getD, List.getD_eq_getElem?_getD,
    List.getElem?_eraseIdx, if_neg (by omega)]

lemma dedupFrom_adj :
    ∀ (c : Nat) (hs he hs' he' : List Nat),
      (∀ j, c ≤ j → j + 1 < he.length → he.getD j 0 ≠ he.getD (j + 1) 0) →
      dedupFrom hs he c = some (hs', he') →
      ∀ j, j + 1 < he'.length → he'.getD j 0 ≠ he'.getD (j + 1) 0 := by
  intro c
  induction c with
  | zero =>
      intro hs he hs' he' hinv h
      simp only [dedupFrom, Option.some_inj, Prod.mk.injEq] at h
      obtain ⟨rfl, rfl⟩ := h
      intro j hj
      exact hinv j (by omega) hj
  | succ i ih =>
      intro hs he hs' he' hinv h
      simp only [dedupFrom] at h
      cases ha : he.get? (i + 1) with
      | none =>
          simp only [ha] at h
          exact absurd h (by simp)
      | some a =>
          cases hb : he.get? i with
          | none =>
              simp only [ha, hb] at h
              exact absurd h (by simp)
          | some b =>
              simp only [ha, hb] at h
              have hlt : i + 1 < he.length := (List.get?_eq_some.mp ha).1
              have hav : he.getD (i + 1) 0 = a := by
                rw [List.getD_eq_getElem?_getD, ← List.get?_eq_getElem?, ha]
                rfl
              have hbv : he.getD i 0 = b := by
                rw [List.getD_eq_getElem?_getD, ← List.get?_eq_getElem?, hb]
                rfl
              by_cases hab : a = b
              · rw [if_pos hab] at h
                refine ih _ _ _ _ ?_ h
                intro j hji hjlen
                have hlen2 : (he.eraseIdx (i + 1)).length = he.length - 1 :=
                  List.length_eraseIdx_of_lt hlt
                by_cases hji2 : j = i
                · rw [hji2] at hjlen ⊢
                  rw [getD_eraseIdx_lt (by omega), getD_eraseIdx_ge (by omega)]
                  have hnext := hinv (i + 1) (by omega) (by omega)
                  rw [hbv, ← hab, ← hav]
                  exact hnext
                · rw [getD_eraseIdx_ge (by omega), getD_eraseIdx_ge (by omega)]
                  exact hinv (j + 1) (by omega) (by omega)
              · rw [if_neg hab] at h
                refine ih _ _ _ _ ?_ h
                intro j hji hjlen
                by_cases hji2 : j = i
                · rw [hji2]
                  rw [hbv, hav]
                  exact fun hcc => hab (Eq.symm hcc)
                · exact hinv j (by omega) hjlen

/-! ### The assembly of the fasta index -/

lemma range_map_getD :
    ∀ l : List Nat, (List.range l.length).map (fun i => l.getD i 0) = l := by
  intro l
  induction l with
  | nil => rfl
  | cons a t ih =>
      rw [List.length_cons, List.range_succ_eq_map, List.map_cons,
        List.map_map]
      have hcomp : ((fun i => (a :: t).getD i 0) ∘ (· + 1)) =
          (fun i => t.getD i 0) := by
        funext i
        rfl
      rw [hcomp, ih]
      rfl

lemma assemble_length (hs he : List Nat) (flen : Nat) :
    (assemble hs he flen).length = he.length := by
  simp [assemble]

lemma assemble_map_headend (hs he : List Nat) (flen : Nat) :
    (assemble hs he flen).map (fun r => r.2.1) = he := by
  unfold assemble
  rw [List.map_map]
  exact range_map_getD he

lemma mem_assemble {hs he : List Nat} {flen : Nat}
    {r : Nat × Nat × Nat × Nat} (hr : r ∈ assemble hs he flen) :
    ∃ i, i < he.length ∧
      r = ((hs ++ [flen]).getD i 0, he.getD i 0, he.getD i 0 + 1,
           (hs ++ [flen]).getD (i + 1) 0 - 1) := by
  unfold assemble at hr
  obtain ⟨i, hi, rfl⟩ := List.mem_map.mp hr
  exact ⟨i, List.mem_range.mp hi, rfl⟩

lemma assemble_getD {hs he : List Nat} {flen i : Nat} (hi : i < he.length) :
    (assemble hs he flen).getD i (0, 0, 0, 0) =
      ((hs ++ [flen]).getD i 0, he.getD i 0, he.getD i 0 + 1,
       (hs ++ [flen]).getD (i + 1) 0 - 1) := by
  unfold assemble
  rw [List.getD_eq_getElem _ _ (by simpa using hi), List.getElem_map,
    List.getElem_range]

lemma assemble_head {hs he : List Nat} {flen : Nat} (hne : he ≠ []) :
    (assemble hs he flen).head? =
      some ((hs ++ [flen]).getD 0 0, he.getD 0 0, he.getD 0 0 + 1,
            (hs ++ [flen]).getD 1 0 - 1) := by
  unfold assemble
  cases he with
  | nil => exact absurd rfl hne
  | cons a t =>
      rw [List.length_cons, List.range_succ_eq_map, List.map_cons]
      rfl

lemma assemble_getLast {hs he : List Nat} {flen t : Nat}
    (hlen : he.length = t + 1) :
    (assemble hs he flen).getLast? =
      some ((hs ++ [flen]).getD t 0, he.getD t 0, he.getD t 0 + 1,
            (hs ++ [flen]).getD (t + 1) 0 - 1) := by
  unfold assemble
  rw [List.getLast?_map, hlen, List.range_succ, List.getLast?_concat]
  rfl

lemma indexfasta_some_unpack {content : List Nat}
    {idx : List (Nat × Nat × Nat × Nat)}
    (h : indexfasta content = some idx) :
    ∃ hs' he',
      dedupFrom (findAllIdx content 62)
        (headendList content (findAllIdx content 62))
        ((findAllIdx content 62).length - 1) = some (hs', he') ∧
      idx = assemble hs' he' content.length := by
  simp only [indexfasta, Option.map_eq_some'] at h
  obtain ⟨pr, hded, hasm⟩ := h
  exact ⟨pr.1, pr.2, hded, hasm.symm⟩

lemma hs2_pairwise {content : List Nat} {hs' : List Nat}
    (hsub : List.Sublist hs' (findAllIdx content 62)) :
    (hs' ++ [content.length]).Pairwise (· < ·) := by
  refine List.pairwise_append.mpr
    ⟨(findAllIdx_sorted content 62).sublist hsub,
     List.pairwise_singleton _ _, ?_⟩
  intro x hx y hy
  rw [List.mem_singleton] at hy
  subst hy
  exact findAllIdx_lt (hsub.subset hx)

lemma pairwise_lt_of_le_ne {l : List Nat} (h1 : l.Pairwise (· ≤ ·))
    (h2 : ∀ j, j + 1 < l.length → l.getD j 0 ≠ l.getD (j + 1) 0) :
    l.Pairwise (· < ·) := by
  rw [← List.chain'_iff_pairwise, List.chain'_iff_get]
  intro i hi
  have hle := List.pairwise_iff_getElem.mp h1 i (i + 1) (by omega) (by omega)
    (by omega)
  have hne := h2 i (by omega)
  rw [List.get_eq_getElem, List.get_eq_getElem]
  refine lt_of_le_of_ne hle ?_
  intro hcc
  apply hne
  have e1 := List.getD_eq_getElem l 0 (show i < l.length by omega)
  have e2 := List.getD_eq_getElem l 0 (show i + 1 < l.length by omega)
  exact e1.trans (hcc.trans e2.symm)

lemma head?_getD {l : List Nat} (hne : l ≠ []) :
    l.head? = some (l.getD 0 0) := by
  cases l with
  | nil => exact absurd rfl hne
  | cons a t => rfl

lemma headendList_pairwise_le (content : List Nat) :
    (headendList content (findAllIdx content 62)).Pairwise (· ≤ ·) := by
  rw [← List.chain'_iff_pairwise]
  refine headendList_chain content _ ?_
  exact ((findAllIdx_sorted content 62).imp (fun h => le_of_lt h)).chain'

/-- C4 counterexample: in the file `>a>b\nX\n` the two detected header
starts 0 and 2 both resolve to the newline at offset 4; the code keeps
the EARLIER start 0 and drops the later one, so the claim that the
earlier is dropped fails. -/
theorem indexfasta_keeps_earlier_duplicate :
    findAllIdx [62, 97, 62, 98, 10, 88, 10] 62 = [0, 2] ∧
    headendList [62, 97, 62, 98, 10, 88, 10] [0, 2] = [4, 4] ∧
    indexfasta [62, 97, 62, 98, 10, 88, 10] = some [(0, 4, 5, 6)] := by
  refine ⟨by decide, by decide, ?_⟩
  decide

/-- C4 (amended): whenever two detected header starts resolve to the same
header-terminating newline, the LATER one is dropped and the earlier kept
(in particular the first detected header start always survives), so the
returned index never contains two records sharing one header-end offset:
the header-end offsets of the result are strictly increasing. -/
theorem indexfasta_headends_distinct (content : List Nat)
    (idx : List (Nat × Nat × Nat × Nat))
    (hidx : indexfasta content = some idx) :
    (idx.map (fun r => r.2.1)).Pairwise (· < ·) ∧
    ∀ r, idx.head? = some r → some r.1 = (findAllIdx content 62).head? := by
  obtain ⟨hs', he', hded, rfl⟩ := indexfasta_some_unpack hidx
  have hle : (headendList content (findAllIdx content 62)).length ≤
      (findAllIdx content 62).length := headendList_length_le content _
  obtain ⟨hsubS, hsubE⟩ := dedupFrom_sublist _ _ _ _ _ hded
  have hadj : ∀ j, j + 1 < he'.length → he'.getD j 0 ≠ he'.getD (j + 1) 0 := by
    refine dedupFrom_adj _ _ _ _ _ ?_ hded
    intro j hj hjl
    omega
  have hppE : he'.Pairwise (· ≤ ·) :=
    (headendList_pairwise_le content).sublist hsubE
  have hppLt : he'.Pairwise (· < ·) := pairwise_lt_of_le_ne hppE hadj
  constructor
  · rw [assemble_map_headend]
    exact hppLt
  · intro r hr
    have hne : he' ≠ [] := by
      intro hnil
      subst hnil
      simp [assemble] at hr
    rw [assemble_head hne] at hr
    rw [Option.some_inj] at hr
    have hlen' : he'.length ≤ hs'.length :=
      (dedupFrom_len _ _ _ _ _ hle hded).1
    have hsne : hs' ≠ [] := by
      intro hnil
      subst hnil
      simp at hlen'
      exact hne hlen'
    have hhead := (dedupFrom_head _ _ _ _ _ hded).1
    rw [← hr]
    show some ((hs' ++ [content.length]).getD 0 0) = _
    rw [List.getD_append _ _ _ _ (by
      cases hs' with
      | nil => exact absurd rfl hsne
      | cons a t => simp)]
    rw [← head?_getD hsne, hhead]

/-- C4 witness at a concrete file with a duplicated header marker. -/
theorem indexfasta_headends_distinct_witness :
    indexfasta [62, 97, 62, 98, 10, 88, 10] = some [(0, 4, 5, 6)] ∧
    (([((0 : Nat), (4 : Nat), (5 : Nat), (6 : Nat))].map
        (fun r => r.2.1)).Pairwise (· < ·) ∧
     ∀ r, [((0 : Nat), (4 : Nat), (5 : Nat), (6 : Nat))].head? = some r →
       some r.1 = (findAllIdx [62, 97, 62, 98, 10, 88, 10] 62).head?) :=
  ⟨by decide, indexfasta_headends_distinct _ _ (by decide)⟩

/-- C8: on a well-formed header-delimited file (every detected header has
a terminating newline, all header ends distinct) beginning with the
header marker, `indexfasta` returns one record per header; every record
has `seqstart = headend + 1`; consecutive records are contiguous
(`seqend + 1` is the next record's `headstart`); the first record starts
at offset 0; and the last record's `seqend` is the file length minus
one — so the records tile the whole file. -/
theorem indexfasta_coverage (content : List Nat)
    (idx : List (Nat × Nat × Nat × Nat)) (hwf : wellFormedFasta content)
    (hidx : indexfasta content = some idx) (h62 : content.getD 0 0 = 62)
    (hne : content ≠ []) :
    idx.length = headerCount content ∧
    (∀ r ∈ idx, r.2.2.1 = r.2.1 + 1) ∧
    (∀ j, j + 1 < idx.length →
      (idx.getD j (0, 0, 0, 0)).2.2.2 + 1 = (idx.getD (j + 1) (0, 0, 0, 0)).1) ∧
    (∀ r, idx.head? = some r → r.1 = 0) ∧
    (∀ r, idx.getLast? = some r → r.2.2.2 = content.length - 1) := by
  obtain ⟨hlenwf, hchainwf⟩ := hwf
  obtain ⟨hs', he', hded, rfl⟩ := indexfasta_some_unpack hidx
  have hnoop : dedupFrom (findAllIdx content 62)
      (headendList content (findAllIdx content 62))
      ((findAllIdx content 62).length - 1) =
      some (findAllIdx content 62,
        headendList content (findAllIdx content 62)) := by
    refine dedupFrom_noop _ _ _ ?_ hchainwf
    by_cases h0 : (findAllIdx content 62).length = 0
    · right; omega
    · left; omega
  rw [hnoop] at hded
  rw [Option.some_inj] at hded
  obtain ⟨rfl, rfl⟩ := Prod.mk.injEq .. |>.mp hded.symm
  have hmem0 : 0 ∈ findAllIdx content 62 := findAllIdx_mem_zero h62 hne
  have hsne : findAllIdx content 62 ≠ [] := by
    intro hnil
    rw [hnil] at hmem0
    simp at hmem0
  have hs2pw : ((findAllIdx content 62) ++ [content.length]).Pairwise (· < ·) :=
    hs2_pairwise (List.Sublist.refl _)
  refine ⟨?_, ?_, ?_, ?_, ?_⟩
  · rw [assemble_length, hlenwf]
    rfl
  · intro r hr
    obtain ⟨i, hi, rfl⟩ := mem_assemble hr
    rfl
  · intro j hj
    rw [assemble_length] at hj
    rw [assemble_getD (by omega), assemble_getD (by omega)]
    have hjlt : j + 1 < ((findAllIdx content 62) ++ [content.length]).length := by
      rw [List.length_append]
      omega
    have hpos : 1 ≤ ((findAllIdx content 62) ++ [content.length]).getD (j + 1) 0 := by
      have hlt := List.pairwise_iff_getElem.mp hs2pw 0 (j + 1)
        (by omega) (by omega) (by omega)
      have e2 := List.getD_eq_getElem ((findAllIdx content 62) ++ [content.length]) 0 hjlt
      omega
    show ((findAllIdx content 62) ++ [content.length]).getD (j + 1) 0 - 1 + 1 = _
    omega
  · intro r hr
    have hene : headendList content (findAllIdx content 62) ≠ [] := by
      intro hnil
      rw [hnil] at hr
      simp [assemble] at hr
    rw [assemble_head hene, Option.some_inj] at hr
    subst hr
    show ((findAllIdx content 62) ++ [content.length]).getD 0 0 = 0
    rw [List.getD_append _ _ _ _ (List.length_pos.mpr hsne)]
    have hh := findAllIdx_head h62 hne
    rw [head?_getD hsne, Option.some_inj] at hh
    exact hh
  · intro r hr
    have hene : headendList content (findAllIdx content 62) ≠ [] := by
      intro hnil
      rw [hnil] at hr
      simp [assemble] at hr
    have hpos : 0 < (headendList content (findAllIdx content 62)).length :=
      List.length_pos.mpr hene
    have hlen1 : (headendList content (findAllIdx content 62)).length =
        ((headendList content (findAllIdx content 62)).length - 1) + 1 := by
      omega
    rw [assemble_getLast hlen1, Option.some_inj] at hr
    subst hr
    show ((findAllIdx content 62) ++ [content.length]).getD
        (((headendList content (findAllIdx content 62)).length - 1) + 1) 0 - 1
      = content.length - 1
    have hidx2 : ((headendList content (findAllIdx content 62)).length - 1) + 1
        = (findAllIdx content 62).length := by
      omega
    rw [hidx2]
    rw [List.getD_append_right _ _ _ _ (le_refl _)]
    simp

/-- C8 witness at a concrete two-record file `>a\nCC\n>b\nGG\n`. -/
theorem indexfasta_coverage_witness :
    (wellFormedFasta [62, 97, 10, 67, 67, 10, 62, 98, 10, 71, 71, 10] ∧
     indexfasta [62, 97, 10, 67, 67, 10, 62, 98, 10, 71, 71, 10] =
       some [(0, 2, 3, 5), (6, 8, 9, 11)] ∧
     ([62, 97, 10, 67, 67, 10, 62, 98, 10, 71, 71, 10] : List Nat).getD 0 0 = 62 ∧
     ([62, 97, 10, 67, 67, 10, 62, 98, 10, 71, 71, 10] : List Nat) ≠ []) ∧
    (([((0 : Nat), (2 : Nat), (3 : Nat), (5 : Nat)),
       ((6 : Nat), (8 : Nat), (9 : Nat), (11 : Nat))].length =
        headerCount [62, 97, 10, 67, 67, 10, 62, 98, 10, 71, 71, 10] ∧
      (∀ r ∈ [((0 : Nat), (2 : Nat), (3 : Nat), (5 : Nat)),
              ((6 : Nat), (8 : Nat), (9 : Nat), (11 : Nat))],
        r.2.2.1 = r.2.1 + 1) ∧
      (∀ j, j + 1 < [((0 : Nat), (2 : Nat), (3 : Nat), (5 : Nat)),
                     ((6 : Nat), (8 : Nat), (9 : Nat), (11 : Nat))].length →
        ([((0 : Nat), (2 : Nat), (3 : Nat), (5 : Nat)),
          ((6 : Nat), (8 : Nat), (9 : Nat), (11 : Nat))].getD j
            (0, 0, 0, 0)).2.2.2 + 1 =
        ([((0 : Nat), (2 : Nat), (3 : Nat), (5 : Nat)),
          ((6 : Nat), (8 : Nat), (9 : Nat), (11 : Nat))].getD (j + 1)
            (0, 0, 0, 0)).1) ∧
      (∀ r, [((0 : Nat), (2 : Nat), (3 : Nat), (5 : Nat)),
             ((6 : Nat), (8 : Nat), (9 : Nat), (11 : Nat))].head? = some r →
        r.1 = 0) ∧
      (∀ r, [((0 : Nat), (2 : Nat), (3 : Nat), (5 : Nat)),
             ((6 : Nat), (8 : Nat), (9 : Nat), (11 : Nat))].getLast? = some r →
        r.2.2.2 =
          ([62, 97, 10, 67, 67, 10, 62, 98, 10, 71, 71, 10] : List Nat).length
            - 1))) :=
  have hwfc : wellFormedFasta [62, 97, 10, 67, 67, 10, 62, 98, 10, 71, 71, 10] := by
    unfold wellFormedFasta
    refine ⟨by decide, ?_⟩
    have hval : headendList [62, 97, 10, 67, 67, 10, 62, 98, 10, 71, 71, 10]
        (findAllIdx [62, 97, 10, 67, 67, 10, 62, 98, 10, 71, 71, 10] 62)
        = [2, 8] := by decide
    rw [hval]
    simp
  ⟨⟨hwfc, by decide, by decide, by decide⟩,
   indexfasta_coverage [62, 97, 10, 67, 67, 10, 62, 98, 10, 71, 71, 10]
     [(0, 2, 3, 5), (6, 8, 9, 11)] hwfc (by decide) (by decide) (by decide)⟩
